import Mathlib

/-!
Verification of the chunk-locker core: the FastCDC-2020 cut-point finder
(src/src/chunker/fast_cdc/mod.rs and chunking.rs), the streaming chunker
wrappers, and the pinned buffer pool (src/src/memory.rs), embedded shallowly
over lists of bytes (`List Nat`, values taken mod 2^64 where the source uses
wrapping u64 arithmetic).

The file `src/src/chunker/fast_cdc/consts.rs` (the `GEAR`, `GEAR_LS` and
`MASKS` tables and the size-range constants) and the `StreamCdcConfig` type
are declared by the sources but absent from the tree; they are modelled from
the specification where needed, as noted on each such definition.
-/

set_option maxRecDepth 100000

namespace ChunkLocker

/-- Wrap-around modulus of the 64-bit machine arithmetic used by the gear hash. -/
def U64 : Nat := 18446744073709551616

/-- Modelled from the spec: `consts.rs` (holding the `GEAR_LS` table) is absent
from the source tree; the spec pins `GEAR_LS[b] = GEAR[b] << 1`, so the table is
modelled as the wrapping left shift of an abstract gear table. -/
def gearLS (gear : Nat → Nat) (b : Nat) : Nat := gear b * 2 % U64

/-- Shared loop of the two cut loops of the free function `cut`
(src/src/chunker/fast_cdc/mod.rs lines 63-86) and of `StreamCdc::cut`
(src/src/chunker/fast_cdc/chunking.rs lines 137-158): two bytes per step,
starting at `i`, running `fuel` iterations (the source iterates `index` up to a
bound `stop`; here `fuel = stop - index` so that recursion is structural).
`Sum.inl (hash, cutpoint)` is an early return on a mask match and
`Sum.inr hash` is fall-through to the next phase. -/
def cutFrom (gear : Nat → Nat) (w : List Nat) (maskLs mask : Nat) :
    Nat → Nat → Nat → Sum (Nat × Nat) Nat
  | hash, _, 0 => Sum.inr hash
  | hash, i, fuel + 1 =>
    let a := i * 2
    let h1 := (hash * 4 + gearLS gear (w.getD a 0)) % U64
    if h1 &&& maskLs = 0 then Sum.inl (h1, a)
    else
      let h2 := (h1 + gear (w.getD (a + 1) 0)) % U64
      if h2 &&& mask = 0 then Sum.inl (h2, a + 1)
      else cutFrom gear w maskLs mask h2 (i + 1) fuel

/-- Clamping of `remaining` at the top of both cut implementations:
`if remaining > max_size { remaining = max_size }`. -/
def cutRemaining (maxS n : Nat) : Nat := if maxS < n then maxS else n

/-- Computation of `center` at the top of both cut implementations: `center`
starts at `avg_size` and is lowered to `remaining` only in the
`else if remaining < center` branch. -/
def cutCenter (avgS maxS n : Nat) : Nat :=
  if maxS < n then avgS else if n < avgS then n else avgS

/-- The free function `cut` of src/src/chunker/fast_cdc/mod.rs (lines 41-90),
with the gear table passed explicitly because `consts.rs` is absent from the
tree. -/
def cut (gear : Nat → Nat) (source : List Nat)
    (minS avgS maxS maskS maskL maskSls maskLls : Nat) : Nat × Nat :=
  let n := source.length
  if n ≤ minS then (0, n)
  else
    let remaining := cutRemaining maxS n
    let center := cutCenter avgS maxS n
    match cutFrom gear source maskSls maskS 0 (minS / 2) (center / 2 - minS / 2) with
    | Sum.inl r => r
    | Sum.inr h =>
      match cutFrom gear source maskLls maskL h (center / 2) (remaining / 2 - center / 2) with
      | Sum.inl r => r
      | Sum.inr h2 => (h2, remaining)

/-- Modelled from the spec: `StreamCdcConfig` is referenced by
src/src/chunker/fast_cdc/chunking.rs but its definition is absent from the
tree; its fields are exactly the ones chunking.rs reads (sizes and the four
derived masks, spec §3 and §4.2). -/
structure CdcCfg where
  min_size : Nat
  avg_size : Nat
  max_size : Nat
  mask_s : Nat
  mask_l : Nat
  mask_s_ls : Nat
  mask_l_ls : Nat
deriving DecidableEq

/-- The method `StreamCdc::cut` of src/src/chunker/fast_cdc/chunking.rs
(lines 124-162), operating on the logical contents of the internal buffer. -/
def cutStream (gear : Nat → Nat) (cfg : CdcCfg) (buffer : List Nat) : Nat × Nat :=
  let n := buffer.length
  if n ≤ cfg.min_size then (0, n)
  else
    let remaining := cutRemaining cfg.max_size n
    let center := cutCenter cfg.avg_size cfg.max_size n
    match cutFrom gear buffer cfg.mask_s_ls cfg.mask_s 0 (cfg.min_size / 2)
        (center / 2 - cfg.min_size / 2) with
    | Sum.inl r => r
    | Sum.inr h =>
      match cutFrom gear buffer cfg.mask_l_ls cfg.mask_l h (center / 2)
          (remaining / 2 - center / 2) with
      | Sum.inl r => r
      | Sum.inr h2 => (h2, remaining)

/-- Reference loop of the cut-point algorithm, written from the specification
text (spec §4.2, steps 3 and 4): kept as a definition separate from `cutFrom`
so that the source implementations can be compared against it. -/
def specPhase (gear : Nat → Nat) (w : List Nat) (maskSh mask : Nat) :
    Nat → Nat → Nat → Sum (Nat × Nat) Nat
  | hash, _, 0 => Sum.inr hash
  | hash, i, fuel + 1 =>
    let a := i * 2
    let h1 := (hash * 4 + gearLS gear (w.getD a 0)) % U64
    if h1 &&& maskSh = 0 then Sum.inl (h1, a)
    else
      let h2 := (h1 + gear (w.getD (a + 1) 0)) % U64
      if h2 &&& mask = 0 then Sum.inl (h2, a + 1)
      else specPhase gear w maskSh mask h2 (i + 1) fuel

/-- Reference cut-point algorithm written from the specification text
(spec §4.2, steps 1-5): `remaining = min(n, M)`, `center = min(A, remaining)`,
the small-mask phase up to `center / 2`, the large-mask phase up to
`remaining / 2`, maximum-length fallback, with the shifted masks
`mask << 1` (wrapping). -/
def specCut (gear : Nat → Nat) (w : List Nat) (m a mx maskS maskL : Nat) : Nat × Nat :=
  let n := w.length
  if n ≤ m then (0, n)
  else
    let remaining := min n mx
    let center := min a remaining
    match specPhase gear w (maskS * 2 % U64) maskS 0 (m / 2) (center / 2 - m / 2) with
    | Sum.inl r => r
    | Sum.inr h =>
      match specPhase gear w (maskL * 2 % U64) maskL h (center / 2) (remaining / 2 - center / 2) with
      | Sum.inl r => r
      | Sum.inr h2 => (h2, remaining)

/-- Validated parameter ranges from spec §3 together with the ordering
constraint; the claims quantify over configurations satisfying this. -/
def ValidSizes (minS avgS maxS : Nat) : Prop :=
  64 ≤ minS ∧ minS ≤ 67108864 ∧ 256 ≤ avgS ∧ avgS ≤ 268435456 ∧
    1024 ≤ maxS ∧ maxS ≤ 1073741824 ∧ minS ≤ avgS ∧ avgS ≤ maxS

instance (a b c : Nat) : Decidable (ValidSizes a b c) := by
  unfold ValidSizes; infer_instance

theorem specPhase_eq_cutFrom (gear : Nat → Nat) (w : List Nat) (mls ms : Nat) :
    ∀ (fuel hash i : Nat), specPhase gear w mls ms hash i fuel = cutFrom gear w mls ms hash i fuel := by
  intro fuel
  induction fuel with
  | zero => intro hash i; rfl
  | succ n ih =>
    intro hash i
    simp only [specPhase, cutFrom]
    split
    · rfl
    · split
      · rfl
      · exact ih _ _

theorem cutRemaining_eq_min (maxS n : Nat) : cutRemaining maxS n = min n maxS := by
  unfold cutRemaining
  rw [Nat.min_def]
  split <;> split <;> omega

theorem cutCenter_eq_min (avgS maxS n : Nat) (h : avgS ≤ maxS) :
    cutCenter avgS maxS n = min avgS (min n maxS) := by
  unfold cutCenter
  simp only [Nat.min_def]
  split_ifs <;> omega

/-- Claim C1: for every byte window and every validated configuration, both cut
implementations (the free function `cut` of mod.rs and `StreamCdc::cut` of
chunking.rs) return exactly what the specification's reference algorithm
prescribes, with the shifted masks instantiated to `mask << 1`. -/
theorem c1_cut_refines_spec (gear : Nat → Nat) (w : List Nat)
    (minS avgS maxS maskS maskL : Nat) (hv : ValidSizes minS avgS maxS) :
    cut gear w minS avgS maxS maskS maskL (maskS * 2 % U64) (maskL * 2 % U64) =
      specCut gear w minS avgS maxS maskS maskL ∧
    cutStream gear ⟨minS, avgS, maxS, maskS, maskL, maskS * 2 % U64, maskL * 2 % U64⟩ w =
      specCut gear w minS avgS maxS maskS maskL := by
  obtain ⟨-, -, -, -, -, -, -, hax⟩ := hv
  constructor
  · unfold cut specCut
    simp only [specPhase_eq_cutFrom, cutRemaining_eq_min maxS w.length,
      cutCenter_eq_min _ _ _ hax]
  · unfold cutStream specCut
    simp only [specPhase_eq_cutFrom, cutRemaining_eq_min, cutCenter_eq_min _ _ _ hax]

/-- Witness for C1 at a concrete validated configuration and window. -/
theorem c1_cut_refines_spec_witness :
    ValidSizes 64 256 1024 ∧
      (cut (fun _ => 1) (List.replicate 100 0) 64 256 1024 4 4 (4 * 2 % U64) (4 * 2 % U64) =
        specCut (fun _ => 1) (List.replicate 100 0) 64 256 1024 4 4 ∧
      cutStream (fun _ => 1) ⟨64, 256, 1024, 4, 4, 4 * 2 % U64, 4 * 2 % U64⟩
          (List.replicate 100 0) =
        specCut (fun _ => 1) (List.replicate 100 0) 64 256 1024 4 4) :=
  ⟨by decide, c1_cut_refines_spec (fun _ => 1) (List.replicate 100 0) 64 256 1024 4 4 (by decide)⟩

/-- Logical state of a streaming chunker: the initialized bytes of the internal
buffer, the bytes not yet delivered by the source, the processed counter and
the EOF flag (fields of `StreamCdc` in chunking.rs and of `StreamCDC` in
mod.rs; the vendored struct tracks the valid prefix of its `Vec` through the
`length` field, modelled here as the list `buffer` itself). -/
structure StreamSt where
  buffer : List Nat
  source : List Nat
  processed : Nat
  eof : Bool
deriving DecidableEq

/-- Chunk record `ChunkData` of chunking.rs: hash, absolute offset, and the
drained buffer truncated to the chunk. -/
structure ChunkS where
  hash : Nat
  offset : Nat
  data : List Nat
deriving DecidableEq

/-- Chunk record `ChunkData` of mod.rs (the vendored streaming chunker), which
also carries an explicit `length` field. -/
structure ChunkV where
  hash : Nat
  offset : Nat
  length : Nat
  data : List Nat
deriving DecidableEq

/-- The fill loops `StreamCdc::fill_buffer` (chunking.rs lines 206-218,
capacity `cap` = the memory-pool buffer size `max_len`) and
`StreamCDC::fill_buffer` (mod.rs lines 398-415, capacity `cap` = `max_size`):
reads are modelled deterministically, each delivering the next source bytes,
a zero-length read occurring exactly at source exhaustion; the loop therefore
appends `min(cap - buffer.len, source.len)` bytes and sets `eof` exactly when
the source ran out before the buffer filled up. -/
def fillBuffer (cap : Nat) (st : StreamSt) : StreamSt :=
  if st.eof then st
  else
    let free := cap - st.buffer.length
    { buffer := st.buffer ++ st.source.take free
      source := st.source.drop free
      processed := st.processed
      eof := decide (st.source.length < free) }

/-- The method `StreamCdc::drain_bytes` (chunking.rs lines 169-181): asserts
`count <= buffer.len`, then builds a read cursor with `cursor_from(count)`,
whose assertion (memory.rs line 224) is the strict `offset < len`; an
assertion failure (panic) is modelled as `none`. On success the first `count`
bytes are returned and the rest become the new buffer. -/
def drainBytes (st : StreamSt) (count : Nat) : Option (List Nat × StreamSt) :=
  if count ≤ st.buffer.length then
    if count < st.buffer.length then
      some (st.buffer.take count, { st with buffer := st.buffer.drop count })
    else none
  else none

/-- The method `StreamCDC::drain_bytes` (mod.rs lines 419-432): errors if
`count > length`, otherwise drains the first `count` bytes of the `Vec`. -/
def drainBytesV (st : StreamSt) (count : Nat) : Option (List Nat × StreamSt) :=
  if count ≤ st.buffer.length then
    some (st.buffer.take count, { st with buffer := st.buffer.drop count })
  else none

/-- The method `StreamCdc::read_chunk` (chunking.rs lines 222-247). The outer
`Option` models panics (`none` = assertion failure inside `drain_bytes`), the
inner one models `Ok(None)` (end of stream). `bufCap` is the pool buffer size
`max_len` of the handle. -/
def readChunkS (gear : Nat → Nat) (cfg : CdcCfg) (bufCap : Nat) (st : StreamSt) :
    Option (Option (ChunkS × StreamSt)) :=
  let st1 := if st.buffer.length < cfg.max_size then fillBuffer bufCap st else st
  if st1.buffer.length = 0 then some none
  else
    let hc := cutStream gear cfg st1.buffer
    if hc.2 = 0 then some none
    else
      match drainBytes st1 hc.2 with
      | none => none
      | some (data, st2) =>
        some (some ({ hash := hc.1, offset := st1.processed, data := data },
          { st2 with processed := st1.processed + hc.2 }))

/-- The method `StreamCDC::read_chunk` (mod.rs lines 436-465). The outer
`Option` models `Err(Other)` escaping from `drain_bytes` (`none`), the inner
one models `Err(Empty)`, which the `Iterator` impl (lines 468-479) turns into
`None`. -/
def readChunkV (gear : Nat → Nat) (cfg : CdcCfg) (st : StreamSt) :
    Option (Option (ChunkV × StreamSt)) :=
  let st1 := fillBuffer cfg.max_size st
  if st1.buffer.length = 0 then some none
  else
    let hc := cut gear st1.buffer cfg.min_size cfg.avg_size cfg.max_size
      cfg.mask_s cfg.mask_l cfg.mask_s_ls cfg.mask_l_ls
    if hc.2 = 0 then some none
    else
      match drainBytesV st1 hc.2 with
      | none => none
      | some (data, st2) =>
        some (some ({ hash := hc.1, offset := st1.processed, length := hc.2, data := data },
          { st2 with processed := st1.processed + hc.2 }))

/-- Fueled iteration of `StreamCdc::read_chunk`, collecting the emitted chunk
records in order; the boolean records whether the run ended in a panic. Fuel
is always sufficient at the entry point `chunksS` because every emitted chunk
consumes at least one byte. -/
def chunksSAux (gear : Nat → Nat) (cfg : CdcCfg) (bufCap : Nat) :
    Nat → StreamSt → List ChunkS × Bool
  | 0, _ => ([], false)
  | fuel + 1, st =>
    match readChunkS gear cfg bufCap st with
    | none => ([], true)
    | some none => ([], false)
    | some (some (c, st2)) =>
      let r := chunksSAux gear cfg bufCap fuel st2
      (c :: r.1, r.2)

/-- Full run of the chunking.rs streaming chunker from a given state. -/
def chunksS (gear : Nat → Nat) (cfg : CdcCfg) (bufCap : Nat) (st : StreamSt) :
    List ChunkS × Bool :=
  chunksSAux gear cfg bufCap (st.buffer.length + st.source.length + 1) st

/-- Fueled iteration of the vendored `StreamCDC::read_chunk`; the boolean
records an `Err(Other)` escape (which never happens). -/
def chunksVAux (gear : Nat → Nat) (cfg : CdcCfg) :
    Nat → StreamSt → List ChunkV × Bool
  | 0, _ => ([], false)
  | fuel + 1, st =>
    match readChunkV gear cfg st with
    | none => ([], true)
    | some none => ([], false)
    | some (some (c, st2)) =>
      let r := chunksVAux gear cfg fuel st2
      (c :: r.1, r.2)

/-- Full run of the vendored streaming chunker from a given state. -/
def chunksV (gear : Nat → Nat) (cfg : CdcCfg) (st : StreamSt) : List ChunkV × Bool :=
  chunksVAux gear cfg (st.buffer.length + st.source.length + 1) st

/-- Initial chunker state over a source: empty buffer, zero processed, EOF not
yet observed (constructors `StreamCdc::new` and `StreamCDC::with_level`). -/
def initSt (src : List Nat) : StreamSt :=
  { buffer := [], source := src, processed := 0, eof := false }

/-- Gear table with every entry 1, used to instantiate the modelled (absent)
gear table in concrete counterexample runs. -/
def gear1 : Nat → Nat := fun _ => 1

/-- Validated sizes (64, 256, 1024) with modelled masks `mask_s = mask_l = 4`
(hence shifted masks 8), used for concrete counterexample runs; the true
`MASKS` entries are unavailable because consts.rs is absent. -/
def cfg64 : CdcCfg := ⟨64, 256, 1024, 4, 4, 8, 8⟩

/-- Claim C2 (code bug): on the four-byte source `[0,0,0,0]` with validated
sizes (64, 256, 1024) and pool buffer size 1024, `read_chunk` computes
`count = 4 = buffer.len` for the trailing chunk and `drain_bytes` then calls
`cursor_from(count)`, whose assertion `offset < len` (memory.rs line 224)
fails; the stream panics without emitting any record, so the concatenation of
the emitted records does not reconstruct the source. -/
theorem c2_trailing_drain_panics :
    (chunksS gear1 cfg64 1024 (initSt (List.replicate 4 0))).2 = true ∧
      ((chunksS gear1 cfg64 1024 (initSt (List.replicate 4 0))).1.map
        (fun c => c.data)).flatten ≠ List.replicate 4 0 := by
  decide

theorem cut_eq_cutStream (gear : Nat → Nat) (w : List Nat)
    (minS avgS maxS maskS maskL maskSls maskLls : Nat) :
    cut gear w minS avgS maxS maskS maskL maskSls maskLls =
      cutStream gear ⟨minS, avgS, maxS, maskS, maskL, maskSls, maskLls⟩ w := rfl

theorem cutFrom_inl_shape (gear : Nat → Nat) (w : List Nat) (mls ms : Nat) :
    ∀ (fuel hash i hh a : Nat),
      cutFrom gear w mls ms hash i fuel = Sum.inl (hh, a) →
      ∃ j, i ≤ j ∧ j < i + fuel ∧ (a = j * 2 ∨ a = j * 2 + 1) := by
  intro fuel
  induction fuel with
  | zero => intro hash i hh a e; exact absurd e (by simp [cutFrom])
  | succ n ih =>
    intro hash i hh a e
    rw [cutFrom] at e
    simp only [] at e
    split at e
    · simp only [Sum.inl.injEq, Prod.mk.injEq] at e
      exact ⟨i, le_refl i, by omega, Or.inl (by omega)⟩
    · split at e
      · simp only [Sum.inl.injEq, Prod.mk.injEq] at e
        exact ⟨i, le_refl i, by omega, Or.inr (by omega)⟩
      · obtain ⟨j, h1, h2, h3⟩ := ih _ _ _ _ e
        exact ⟨j, by omega, by omega, h3⟩

theorem cutRemaining_le (maxS n : Nat) : cutRemaining maxS n ≤ maxS ∨ cutRemaining maxS n = n := by
  unfold cutRemaining
  split
  · exact Or.inl (le_refl maxS)
  · exact Or.inr rfl

theorem cutCenter_le_cutRemaining (avgS maxS n : Nat) (ham : avgS ≤ maxS) :
    cutCenter avgS maxS n ≤ cutRemaining maxS n := by
  unfold cutCenter cutRemaining
  split_ifs <;> omega

theorem min_le_cutCenter (avgS maxS n minS : Nat) (hma : minS ≤ avgS) (hlt : minS < n) :
    minS ≤ cutCenter avgS maxS n := by
  unfold cutCenter
  split_ifs <;> omega

theorem min_le_cutRemaining (minS avgS maxS n : Nat) (hma : minS ≤ avgS) (ham : avgS ≤ maxS)
    (hlt : minS < n) : minS ≤ cutRemaining maxS n := by
  unfold cutRemaining
  split_ifs <;> omega

/-- Case analysis of `StreamCdc::cut`: the result is the whole window (the
sub-minimum branch), the clamped maximum (fallback), or a two-byte-step
position of one of the loops. -/
theorem cutStream_cases (gear : Nat → Nat) (cfg : CdcCfg) (w : List Nat) (hh c : Nat)
    (hma : cfg.min_size ≤ cfg.avg_size) (ham : cfg.avg_size ≤ cfg.max_size)
    (e : cutStream gear cfg w = (hh, c)) :
    (w.length ≤ cfg.min_size ∧ c = w.length) ∨
      (cfg.min_size < w.length ∧
        (c = cutRemaining cfg.max_size w.length ∨
          ∃ j, cfg.min_size / 2 ≤ j ∧ j < cutRemaining cfg.max_size w.length / 2 ∧
            (c = j * 2 ∨ c = j * 2 + 1))) := by
  unfold cutStream at e
  simp only [] at e
  split at e
  · rename_i hle
    simp only [Prod.mk.injEq] at e
    exact Or.inl ⟨hle, by omega⟩
  · rename_i hgt
    refine Or.inr ⟨by omega, ?_⟩
    have hcr := cutCenter_le_cutRemaining cfg.avg_size cfg.max_size w.length ham
    have hmc := min_le_cutCenter cfg.avg_size cfg.max_size w.length cfg.min_size hma (by omega)
    split at e
    · rename_i r hcf
      obtain ⟨rh, rc⟩ := r
      obtain ⟨j, h1, h2, h3⟩ := cutFrom_inl_shape _ _ _ _ _ _ _ _ _ hcf
      simp only [Prod.mk.injEq] at e
      have hdiv : cutCenter cfg.avg_size cfg.max_size w.length / 2 ≤
          cutRemaining cfg.max_size w.length / 2 := Nat.div_le_div_right hcr
      refine Or.inr ⟨j, h1, by omega, ?_⟩
      rcases h3 with h3 | h3 <;> [left; right] <;> omega
    · rename_i hmid
      split at e
      · rename_i r hcf
        obtain ⟨rh, rc⟩ := r
        obtain ⟨j, h1, h2, h3⟩ := cutFrom_inl_shape _ _ _ _ _ _ _ _ _ hcf
        simp only [Prod.mk.injEq] at e
        have hmc2 : cfg.min_size / 2 ≤ cutCenter cfg.avg_size cfg.max_size w.length / 2 :=
          Nat.div_le_div_right hmc
        refine Or.inr ⟨j, by omega, by omega, ?_⟩
        rcases h3 with h3 | h3 <;> [left; right] <;> omega
      · simp only [Prod.mk.injEq] at e
        exact Or.inl (by omega)

/-- Bounds on a cut result that is a proper prefix of the window: it lies
between `2 * (min_size / 2)` and `max_size`. -/
theorem cutStream_bounds (gear : Nat → Nat) (cfg : CdcCfg) (w : List Nat) (hh c : Nat)
    (hma : cfg.min_size ≤ cfg.avg_size) (ham : cfg.avg_size ≤ cfg.max_size)
    (e : cutStream gear cfg w = (hh, c)) (hlt : c < w.length) :
    2 * (cfg.min_size / 2) ≤ c ∧ c ≤ cfg.max_size := by
  rcases cutStream_cases gear cfg w hh c hma ham e with ⟨h1, h2⟩ | ⟨h1, h2⟩
  · omega
  · have hrem : cutRemaining cfg.max_size w.length ≤ cfg.max_size := by
      unfold cutRemaining; split_ifs <;> omega
    have hminrem := min_le_cutRemaining cfg.min_size cfg.avg_size cfg.max_size w.length
      hma ham (by omega)
    rcases h2 with h2 | ⟨j, hj1, hj2, hj3⟩
    · constructor
      · omega
      · omega
    · rcases hj3 with hj3 | hj3 <;> omega

/-- Every cut of a non-empty window is positive (used by C6 and for stream
progress). -/
theorem cutStream_pos (gear : Nat → Nat) (cfg : CdcCfg) (w : List Nat) (hh c : Nat)
    (hmin : 2 ≤ cfg.min_size) (hma : cfg.min_size ≤ cfg.avg_size)
    (ham : cfg.avg_size ≤ cfg.max_size)
    (e : cutStream gear cfg w = (hh, c)) (hne : w ≠ []) : 1 ≤ c := by
  have hlen : 1 ≤ w.length := by
    cases w
    · exact absurd rfl hne
    · simp
  rcases cutStream_cases gear cfg w hh c hma ham e with ⟨h1, h2⟩ | ⟨h1, h2⟩
  · omega
  · rcases h2 with h2 | ⟨j, hj1, hj2, hj3⟩
    · have : 1 ≤ cutRemaining cfg.max_size w.length := by
        unfold cutRemaining; split_ifs <;> omega
      omega
    · rcases hj3 with hj3 | hj3 <;> omega

/-- Every record emitted by `StreamCdc::read_chunk` is a proper prefix of the
filled buffer of length `(cutStream).2`, hence bounded as in
`cutStream_bounds`. -/
theorem readChunkS_emit (gear : Nat → Nat) (cfg : CdcCfg) (bufCap : Nat) (st : StreamSt)
    (c : ChunkS) (st2 : StreamSt)
    (hma : cfg.min_size ≤ cfg.avg_size) (ham : cfg.avg_size ≤ cfg.max_size)
    (heq : readChunkS gear cfg bufCap st = some (some (c, st2))) :
    2 * (cfg.min_size / 2) ≤ c.data.length ∧ c.data.length ≤ cfg.max_size := by
  unfold readChunkS at heq
  simp only [] at heq
  set st1 := if st.buffer.length < cfg.max_size then fillBuffer bufCap st else st with hst1
  rcases hcut : cutStream gear cfg st1.buffer with ⟨hh, k⟩
  simp only [hcut] at heq
  split at heq
  · simp at heq
  · split at heq
    · simp at heq
    · rename_i hk0
      split at heq
      · simp at heq
      · rename_i data st2a hdrain
        unfold drainBytes at hdrain
        split at hdrain
        · split at hdrain
          · rename_i hle hlt
            simp only [Option.some.injEq, Prod.mk.injEq] at heq hdrain
            obtain ⟨hc1, -⟩ := heq
            obtain ⟨hd1, -⟩ := hdrain
            subst hc1
            have hlen :
                ({ hash := hh, offset := st1.processed, data := data } : ChunkS).data.length = k := by
              simp only []
              rw [← hd1, List.length_take]
              omega
            rw [hlen]
            exact cutStream_bounds gear cfg st1.buffer hh k hma ham hcut hlt
          · simp at hdrain
        · simp at hdrain

/-- Claim C3 amended: every record emitted by the chunking.rs streaming
chunker (with any fuel, hence along any run) has data length between
`2 * (min_size / 2)` and `max_size`. -/
theorem c3_chunk_length_bounds (gear : Nat → Nat) (cfg : CdcCfg) (bufCap : Nat)
    (hv : ValidSizes cfg.min_size cfg.avg_size cfg.max_size) :
    ∀ (fuel : Nat) (st : StreamSt) (c : ChunkS),
      c ∈ (chunksSAux gear cfg bufCap fuel st).1 →
      2 * (cfg.min_size / 2) ≤ c.data.length ∧ c.data.length ≤ cfg.max_size := by
  obtain ⟨-, -, -, -, -, -, hma, ham⟩ := hv
  intro fuel
  induction fuel with
  | zero =>
    intro st c hc
    simp [chunksSAux] at hc
  | succ n ih =>
    intro st c hc
    rcases hr : readChunkS gear cfg bufCap st with - | r
    · simp only [chunksSAux, hr] at hc
      simp at hc
    · cases r with
      | none =>
        simp only [chunksSAux, hr] at hc
        simp at hc
      | some p =>
        obtain ⟨c1, st2⟩ := p
        simp only [chunksSAux, hr] at hc
        simp only [List.mem_cons] at hc
        rcases hc with hc | hc
        · rw [hc]
          exact readChunkS_emit gear cfg bufCap st c1 st2 hma ham hr
        · exact ih st2 c hc

/-- Witness for the amended C3 at a concrete run: the first emitted record of
the 200-zero-byte run under `cfg64`. -/
theorem c3_chunk_length_bounds_witness :
    2 * (cfg64.min_size / 2) ≤ (ChunkS.mk 2 0 (List.replicate 64 0)).data.length ∧
      (ChunkS.mk 2 0 (List.replicate 64 0)).data.length ≤ cfg64.max_size :=
  c3_chunk_length_bounds gear1 cfg64 1024 (by decide) 205 (initSt (List.replicate 200 0))
    (ChunkS.mk 2 0 (List.replicate 64 0)) (by decide)

/-- Claim C3 counterexample: under the validated sizes (64, 256, 1024) (masks
and gear table modelled, consts.rs being absent) the 200-zero-byte run emits
three records of length 64 each; the first record is not the last one of the
stream, yet its data length is exactly `min_size = 64`, refuting the claimed
strict bound `min_size < data.len` for non-last records. -/
theorem c3_strict_min_counterexample :
    ¬ (∀ i : Nat, i + 1 < (chunksS gear1 cfg64 1024 (initSt (List.replicate 200 0))).1.length →
        cfg64.min_size <
          ((chunksS gear1 cfg64 1024 (initSt (List.replicate 200 0))).1.getD i
            (ChunkS.mk 0 0 [])).data.length) := by
  intro h
  have h0 := h 0 (by decide)
  revert h0
  decide

/-- Claim C6: the early return of `None` on a zero cut count is unreachable in
both streaming implementations: every cut of a non-empty window is positive
(shown for `StreamCdc::cut` and the free `cut`), and `read_chunk` answers
`Ok(None)` (respectively `Err(Empty)`) only when the buffer after filling is
empty. -/
theorem c6_zero_cut_unreachable (gear : Nat → Nat) (cfg : CdcCfg) (bufCap : Nat)
    (hv : ValidSizes cfg.min_size cfg.avg_size cfg.max_size) :
    (∀ w : List Nat, w ≠ [] →
      1 ≤ (cutStream gear cfg w).2 ∧
      1 ≤ (cut gear w cfg.min_size cfg.avg_size cfg.max_size cfg.mask_s cfg.mask_l
        cfg.mask_s_ls cfg.mask_l_ls).2) ∧
    (∀ st : StreamSt, readChunkS gear cfg bufCap st = some none →
      (if st.buffer.length < cfg.max_size then fillBuffer bufCap st else st).buffer = []) ∧
    (∀ st : StreamSt, readChunkV gear cfg st = some none →
      (fillBuffer cfg.max_size st).buffer = []) := by
  obtain ⟨h64, -, -, -, -, -, hma, ham⟩ := hv
  have hpos : ∀ w : List Nat, w ≠ [] → 1 ≤ (cutStream gear cfg w).2 := by
    intro w hw
    rcases hcut : cutStream gear cfg w with ⟨hh, k⟩
    exact cutStream_pos gear cfg w hh k (by omega) hma ham hcut hw
  refine ⟨?_, ?_, ?_⟩
  · intro w hw
    refine ⟨hpos w hw, ?_⟩
    rw [cut_eq_cutStream]
    exact hpos w hw
  · intro st heq
    unfold readChunkS at heq
    simp only [] at heq
    set st1 := if st.buffer.length < cfg.max_size then fillBuffer bufCap st else st with hst1
    split at heq
    · rename_i hz
      exact List.length_eq_zero.mp hz
    · rename_i hz
      split at heq
      · rename_i hk0
        have hne : st1.buffer ≠ [] := by
          intro hnil
          exact hz (by rw [hnil]; rfl)
        exact absurd (hpos st1.buffer hne) (by omega)
      · split at heq
        · simp at heq
        · simp at heq
  · intro st heq
    unfold readChunkV at heq
    simp only [] at heq
    set st1 := fillBuffer cfg.max_size st with hst1
    split at heq
    · rename_i hz
      exact List.length_eq_zero.mp hz
    · rename_i hz
      rw [cut_eq_cutStream] at heq
      have hcfg : (⟨cfg.min_size, cfg.avg_size, cfg.max_size, cfg.mask_s, cfg.mask_l,
          cfg.mask_s_ls, cfg.mask_l_ls⟩ : CdcCfg) = cfg := rfl
      rw [hcfg] at heq
      split at heq
      · rename_i hk0
        have hne : st1.buffer ≠ [] := by
          intro hnil
          exact hz (by rw [hnil]; rfl)
        exact absurd (hpos st1.buffer hne) (by omega)
      · split at heq
        · simp at heq
        · simp at heq

/-- Witness for C6 at a concrete validated configuration and states. -/
theorem c6_zero_cut_unreachable_witness :
    1 ≤ (cutStream gear1 cfg64 [5]).2 ∧
      1 ≤ (cut gear1 [5] cfg64.min_size cfg64.avg_size cfg64.max_size cfg64.mask_s
        cfg64.mask_l cfg64.mask_s_ls cfg64.mask_l_ls).2 :=
  (c6_zero_cut_unreachable gear1 cfg64 1024 (by decide)).1 [5] (by decide)

/-- Modelled from the spec: consts.rs (holding `GEAR`) is absent from the
tree. The all-zero scenario of spec §8 exercises only the entry `GEAR[0]`,
whose value is forced by the pinned hash: after 480 two-byte steps over zero
bytes the running hash is `GEAR[0] * (4^480 - 1) = 2^64 - GEAR[0] (mod 2^64)`,
and the spec pins it to 14169102344523991076, so
`GEAR[0] = 2^64 - 14169102344523991076 = 4277641729185560540`. -/
def gearC : Nat → Nat := fun _ => 4277641729185560540

/-- Modelled from the spec: a witness value for `MASKS[9]` (nine spread set
bits, the stricter small mask at level 1 for `avg_size = 256`), consistent
with the pinned all-zero scenario in that no masked hash vanishes along the
zero stream; the true table entry is unavailable (consts.rs absent). -/
def maskSC : Nat := 8869578866688

/-- Modelled from the spec: a witness value for `MASKS[7]` (seven spread set
bits, the looser large mask at level 1 for `avg_size = 256`), consistent with
the pinned all-zero scenario; the true table entry is unavailable. -/
def maskLC : Nat := 10239235858432

/-- Configuration of the all-zero scenario of spec §8: sizes (64, 256, 1024),
level-1 masks as modelled above, shifted masks `mask << 1`. -/
def cfgC : CdcCfg := ⟨64, 256, 1024, maskSC, maskLC, maskSC * 2 % U64, maskLC * 2 % U64⟩

theorem getD_replicate_zero (n a : Nat) : (List.replicate n (0 : Nat)).getD a 0 = 0 := by
  induction n generalizing a with
  | zero => simp [List.getD]
  | succ m ih =>
    cases a with
    | zero => simp [List.replicate_succ]
    | succ b => simpa [List.replicate_succ] using ih b

theorem getD_nil_zero (a : Nat) : ([] : List Nat).getD a 0 = 0 := by
  simp [List.getD]

/-- On an all-zero window the cut loop reads only zero bytes, so the window can
be replaced by the empty list (whose `getD` default is also zero) for purposes
of evaluation. -/
theorem cutFrom_replicate_zero (gear : Nat → Nat) (n mls ms : Nat) :
    ∀ (fuel hash i : Nat),
      cutFrom gear (List.replicate n 0) mls ms hash i fuel =
        cutFrom gear [] mls ms hash i fuel := by
  intro fuel
  induction fuel with
  | zero => intro hash i; rfl
  | succ m ih =>
    intro hash i
    rw [cutFrom, cutFrom]
    simp only [getD_replicate_zero, getD_nil_zero]
    split
    · rfl
    · split
      · rfl
      · exact ih _ _

/-- Evaluation of the cut on one maximum-size all-zero window under the
scenario configuration: no mask ever matches and the fallback returns the
pinned hash with the clamped maximum length. -/
theorem cutStream_zeros_1024 :
    cutStream gearC cfgC (List.replicate 1024 0) = (14169102344523991076, 1024) := by
  unfold cutStream
  simp only [List.length_replicate, cutFrom_replicate_zero]
  decide

/-- State of the vendored streaming chunker with an empty buffer, `1024 * k`
zero bytes left in the source, and `p` bytes processed. -/
def vstZeros (k p : Nat) : StreamSt :=
  { buffer := [], source := List.replicate (1024 * k) 0, processed := p, eof := false }

/-- Chunk record emitted for each window of the all-zero scenario. -/
def zchunk (p : Nat) : ChunkV :=
  { hash := 14169102344523991076, offset := p, length := 1024, data := List.replicate 1024 0 }

/-- Expected output of the all-zero scenario: `k` maximum-size records with
the pinned hash, at offsets `p, p + 1024, ...`. -/
def zchunkList : Nat → Nat → List ChunkV
  | 0, _ => []
  | k + 1, p => zchunk p :: zchunkList k (p + 1024)

theorem readChunkV_zeros_step (k p : Nat) :
    readChunkV gearC cfgC (vstZeros (k + 1) p) =
      some (some (zchunk p, vstZeros k (p + 1024))) := by
  have hms : cfgC.max_size = 1024 := rfl
  have h1 : min 1024 (1024 * (k + 1)) = 1024 := by omega
  have h2 : 1024 * (k + 1) - 1024 = 1024 * k := by omega
  have h3 : decide (1024 * (k + 1) < 1024) = false := by
    simp only [decide_eq_false_iff_not]
    omega
  have hfill : fillBuffer cfgC.max_size (vstZeros (k + 1) p) =
      { buffer := List.replicate 1024 0, source := List.replicate (1024 * k) 0,
        processed := p, eof := false } := by
    unfold fillBuffer vstZeros
    simp only [hms, List.length_nil, List.length_replicate, List.nil_append,
      List.take_replicate, List.drop_replicate, Nat.sub_zero, h1, h2, h3,
      Bool.false_eq_true, if_false]
  unfold readChunkV
  rw [hfill]
  simp only []
  rw [cut_eq_cutStream]
  have hcfg : (⟨cfgC.min_size, cfgC.avg_size, cfgC.max_size, cfgC.mask_s, cfgC.mask_l,
      cfgC.mask_s_ls, cfgC.mask_l_ls⟩ : CdcCfg) = cfgC := rfl
  rw [hcfg, cutStream_zeros_1024]
  simp only [List.length_replicate]
  norm_num
  unfold drainBytesV
  simp only [List.length_replicate, List.take_replicate, List.drop_replicate]
  norm_num
  unfold zchunk vstZeros
  exact ⟨rfl, rfl⟩

theorem readChunkV_zeros_base (p : Nat) :
    readChunkV gearC cfgC (vstZeros 0 p) = some none := by
  have hfill : fillBuffer cfgC.max_size (vstZeros 0 p) =
      { buffer := [], source := [], processed := p, eof := true } := by
    unfold fillBuffer vstZeros
    simp
    decide
  unfold readChunkV
  rw [hfill]
  rfl

theorem chunksVAux_succ (gear : Nat → Nat) (cfg : CdcCfg) (fuel : Nat) (st : StreamSt) :
    chunksVAux gear cfg (fuel + 1) st =
      match readChunkV gear cfg st with
      | none => ([], true)
      | some none => ([], false)
      | some (some (c, st2)) =>
        let r := chunksVAux gear cfg fuel st2
        (c :: r.1, r.2) := rfl

theorem chunksVAux_zeros (k : Nat) : ∀ (f p : Nat), 1024 * k < f →
    chunksVAux gearC cfgC f (vstZeros k p) = (zchunkList k p, false) := by
  induction k with
  | zero =>
    intro f p hf
    cases f with
    | zero => omega
    | succ f2 =>
      rw [chunksVAux_succ, readChunkV_zeros_base]
      rfl
  | succ k2 ih =>
    intro f p hf
    cases f with
    | zero => omega
    | succ f2 =>
      have hrec := ih f2 (p + 1024) (by omega)
      rw [chunksVAux_succ, readChunkV_zeros_step]
      simp only [hrec]
      rfl

/-- Claim C4: on the 10240-byte all-zero input with sizes (64, 256, 1024) at
normalization level 1 (masks and gear entry modelled from the spec scenario,
consts.rs being absent), the streaming chunker emits exactly ten chunks, each
of length 1024 and hash 14169102344523991076, and then ends with `Err(Empty)`
(surfaced as `None` by the iterator) rather than a panic, so an eleventh poll
yields `None`. -/
theorem c4_all_zero_scenario :
    ((chunksV gearC cfgC (initSt (List.replicate 10240 0))).1.map
        (fun c => (c.hash, c.length)) =
      List.replicate 10 (14169102344523991076, 1024)) ∧
    (chunksV gearC cfgC (initSt (List.replicate 10240 0))).2 = false := by
  have h0 : initSt (List.replicate 10240 0) = vstZeros 10 0 := by
    unfold initSt vstZeros
    norm_num
  unfold chunksV
  rw [h0]
  have hfuel : (vstZeros 10 0).buffer.length + (vstZeros 10 0).source.length + 1 = 10241 := by
    simp only [vstZeros, List.length_replicate, List.length_nil]
  rw [hfuel, chunksVAux_zeros 10 10241 0 (by norm_num)]
  exact ⟨by decide, rfl⟩

/-- Modelled from the spec: the size-range constants of consts.rs (absent from
the tree), pinned bit-exact by spec §3. -/
def MINIMUM_MIN : Nat := 64

/-- Modelled from the spec: upper bound of the `min_size` range. -/
def MINIMUM_MAX : Nat := 67108864

/-- Modelled from the spec: lower bound of the `avg_size` range. -/
def AVERAGE_MIN : Nat := 256

/-- Modelled from the spec: upper bound of the `avg_size` range. -/
def AVERAGE_MAX : Nat := 268435456

/-- Modelled from the spec: lower bound of the `max_size` range. -/
def MAXIMUM_MIN : Nat := 1024

/-- Modelled from the spec: upper bound of the `max_size` range. -/
def MAXIMUM_MAX : Nat := 1073741824

/-- Modelled from the spec: the `MASKS` table of consts.rs (absent from the
tree). The spec pins the index range (indexed 0 to 26, fixed values from the
2020 paper) but does not reproduce the entries; the entries are irrelevant to
the properties settled here, so they are modelled as placeholders of the
pinned length 27. -/
def MASKS : List Nat := List.replicate 27 0

/-- Fueled floor base-2 logarithm (structural recursion so that it evaluates
inside the kernel). -/
def log2floorAux : Nat → Nat → Nat
  | 0, _ => 0
  | fuel + 1, n => if 2 ≤ n then log2floorAux fuel (n / 2) + 1 else 0

/-- Floor of the base-2 logarithm. -/
def log2floor (n : Nat) : Nat := log2floorAux n n

/-- Model of `logarithm2` (mod.rs lines 481-484). The source computes
`(value as f32).log2().round() as u32`; IEEE f32 arithmetic is not
representable in this embedding, so the function is modelled by exact
rounding of the real base-2 logarithm (`round(log2 v) = (floor(log2 (v^2)) + 1) / 2`,
since `v^2` never sits on an odd power of two). The f32 pipeline agrees with
this model whenever the cast and the libm log2f are exact, in particular on
every power of two, but can diverge in range near half-integer logarithms
(for example at 11863283), so no universal theorem of this file depends on
the model's values: the C5 theorem abstracts the function (see `withLevelF`)
and this model is used only to evaluate concrete instances at inputs where
the pipeline is exact. -/
def logarithm2 (v : Nat) : Nat := (log2floor (v * v) + 1) / 2

/-- The validation prologue of `StreamCDC::with_level` (mod.rs lines 362-394)
and `FastCDC::with_level` (mod.rs lines 183-212), which are identical: the six
range asserts in source order, then the table lookups `MASKS[bits + level]`
and `MASKS[bits - level]` where the source computes `bits = logarithm2(avg_size)`.
That computation goes through an f32 cast and the platform libm log2f, which a
shallow embedding cannot pin down (see `logarithm2`); for a fixed platform it
is nevertheless some function of `avg_size`, abstracted here as the parameter
`log2f32`, over which the C5 theorem quantifies. An assertion failure or an
out-of-range table index, both panics, are modelled as `none`; on success the
pair `(mask_s, mask_l)` is returned. -/
def withLevelF (log2f32 : Nat → Nat) (minS avgS maxS level : Nat) : Option (Nat × Nat) :=
  if minS < MINIMUM_MIN then none
  else if MINIMUM_MAX < minS then none
  else if avgS < AVERAGE_MIN then none
  else if AVERAGE_MAX < avgS then none
  else if maxS < MAXIMUM_MIN then none
  else if MAXIMUM_MAX < maxS then none
  else
    let bits := log2f32 avgS
    match MASKS.get? (bits + level), MASKS.get? (bits - level) with
    | some ms, some ml => some (ms, ml)
    | _, _ => none

/-- The validation instantiated at the exact-rounding model of `logarithm2`,
used only for concrete evaluation at inputs where the f32 pipeline is exact
(the counterexample below evaluates it at the power of two `avg_size = 256`,
where the pipeline computes exactly 8). -/
def withLevel (minS avgS maxS level : Nat) : Option (Nat × Nat) :=
  withLevelF logarithm2 minS avgS maxS level

/-- Claim C5 counterexample: constructing with `min_size = 1024`,
`avg_size = 256`, `max_size = 1024` at level 1 has every size individually in
range but violates `min_size ≤ avg_size`; the claim says construction must
fail, yet the source asserts only the six range bounds and the construction
succeeds. At `avg_size = 256` the f32 pipeline is exact (the cast is exact
and `log2` of a power of two is the integer 8), so the instantiation of the
modelled `logarithm2` is faithful here. -/
theorem c5_ordering_not_validated :
    (withLevel 1024 256 1024 1).isSome = true ∧ 256 < 1024 := by
  decide

theorem get?_replicate_zero (n : Nat) :
    ∀ i : Nat, (List.replicate n (0 : Nat)).get? i = if i < n then some 0 else none := by
  induction n with
  | zero => intro i; simp
  | succ m ih =>
    intro i
    cases i with
    | zero => simp [List.replicate_succ]
    | succ j =>
      rw [List.replicate_succ]
      show (List.replicate m 0).get? j = if j + 1 < m + 1 then some 0 else none
      rw [ih j]
      split_ifs <;> first | rfl | omega

theorem masks_get_eq (i : Nat) :
    MASKS.get? i = if i < 27 then some 0 else none := by
  unfold MASKS
  exact get?_replicate_zero 27 i

/-- Claim C5 amended: for every function `log2f32` that the platform's f32
pipeline may compute for `bits`, construction fails exactly when one of the
six range bounds is violated or when the derived small-mask index
`log2f32 avg_size + level` falls outside the 27-entry mask table; the
orderings `min_size ≤ avg_size` and `avg_size ≤ max_size` are not validated,
so violating them alone does not make construction fail. -/
theorem c5_validation_iff (log2f32 : Nat → Nat) (minS avgS maxS level : Nat) :
    (withLevelF log2f32 minS avgS maxS level).isSome = true ↔
      (MINIMUM_MIN ≤ minS ∧ minS ≤ MINIMUM_MAX ∧ AVERAGE_MIN ≤ avgS ∧ avgS ≤ AVERAGE_MAX ∧
        MAXIMUM_MIN ≤ maxS ∧ maxS ≤ MAXIMUM_MAX ∧ log2f32 avgS + level ≤ 26) := by
  unfold withLevelF
  split_ifs with h1 h2 h3 h4 h5 h6
  · simp only [Option.isSome_none]
    constructor
    · intro hfalse; exact absurd hfalse (by decide)
    · intro hr; exact absurd hr.1 (by unfold MINIMUM_MIN at h1 ⊢; omega)
  · simp only [Option.isSome_none]
    constructor
    · intro hfalse; exact absurd hfalse (by decide)
    · intro hr; exact absurd hr.2.1 (by omega)
  · simp only [Option.isSome_none]
    constructor
    · intro hfalse; exact absurd hfalse (by decide)
    · intro hr; exact absurd hr.2.2.1 (by unfold AVERAGE_MIN at h3 ⊢; omega)
  · simp only [Option.isSome_none]
    constructor
    · intro hfalse; exact absurd hfalse (by decide)
    · intro hr; exact absurd hr.2.2.2.1 (by omega)
  · simp only [Option.isSome_none]
    constructor
    · intro hfalse; exact absurd hfalse (by decide)
    · intro hr; exact absurd hr.2.2.2.2.1 (by unfold MAXIMUM_MIN at h5 ⊢; omega)
  · simp only [Option.isSome_none]
    constructor
    · intro hfalse; exact absurd hfalse (by decide)
    · intro hr; exact absurd hr.2.2.2.2.2.1 (by omega)
  · constructor
    · intro hsome
      refine ⟨by omega, by omega, by omega, by omega, by omega, by omega, ?_⟩
      by_contra hgt
      push_neg at hgt
      simp only [] at hsome
      rw [masks_get_eq, if_neg (by omega)] at hsome
      rcases h2 : MASKS.get? (log2f32 avgS - level) with - | v <;> rw [h2] at hsome <;>
        simp at hsome
    · intro hr
      simp only []
      rw [masks_get_eq, masks_get_eq, if_pos (by omega), if_pos (by omega)]
      rfl

/-- Claim C10: in both cut loops over a window of length `n` under a validated
configuration, every loop index `i` (ranging over `min_size / 2` up to
`remaining / 2`, which covers the small phase since
`center / 2 ≤ remaining / 2`) accesses positions `a = i * 2` and `a + 1` that
are below `min(n, max_size)` and in particular below the buffer length `n`, so
the `index < len` assertion of the buffer handle indexing (memory.rs lines
244-251) never fires during the cut. -/
theorem c10_cut_index_in_bounds (minS avgS maxS n i : Nat)
    (hv : ValidSizes minS avgS maxS) (hgt : minS < n)
    (hlo : minS / 2 ≤ i) (hhi : i < cutRemaining maxS n / 2) :
    i * 2 + 1 < min n maxS ∧ i * 2 + 1 < n ∧
      cutCenter avgS maxS n / 2 ≤ cutRemaining maxS n / 2 := by
  obtain ⟨-, -, -, -, -, -, hma, ham⟩ := hv
  have hr := cutRemaining_eq_min maxS n
  have hc := Nat.div_le_div_right (c := 2) (cutCenter_le_cutRemaining avgS maxS n ham)
  refine ⟨?_, ?_, hc⟩ <;> omega

/-- Witness for C10 at a concrete configuration, window length and loop
index. -/
theorem c10_cut_index_in_bounds_witness :
    32 * 2 + 1 < min 100 1024 ∧ 32 * 2 + 1 < 100 ∧
      cutCenter 256 1024 100 / 2 ≤ cutRemaining 1024 100 / 2 :=
  c10_cut_index_in_bounds 64 256 1024 100 32 (by decide) (by decide) (by decide) (by decide)

/-- Handle to one pool slot (`MemoryHandle` of src/src/memory.rs): the slot
index and the logical length (the raw pointer is implied by the index). -/
structure MemHandle where
  allocation_idx : Nat
  len : Nat
deriving DecidableEq

/-- State of the pool (`MemoryManagerData` of src/src/memory.rs): the
occupancy bitmap (`allocations`, one flag per slot, `true` = in use, padded
up to a whole number of machine words) and the indices of the outstanding
handles. -/
structure PoolSt where
  bits : List Bool
  live : List Nat
deriving DecidableEq

/-- The `first_zero` scan of the bitmap performed inside
`MemoryManager::alloc` under the bitmap lock (memory.rs line 118). -/
def firstZero : List Bool → Option Nat
  | [] => none
  | b :: rest => if b then (firstZero rest).map (· + 1) else some 0

/-- The method `MemoryManager::alloc` (memory.rs lines 113-145), one critical
section: scan for the first clear bit; if none exists, or the first clear bit
is a padding bit at or beyond `buffer_count` (`N`), the caller suspends on the
notifier (modelled as `none`); otherwise the bit is set and a handle with
`len = 0` for that slot is returned. -/
def allocP (N : Nat) (s : PoolSt) : Option (MemHandle × PoolSt) :=
  match firstZero s.bits with
  | none => none
  | some i =>
    if N ≤ i then none
    else some ({ allocation_idx := i, len := 0 },
      { bits := s.bits.set i true, live := i :: s.live })

/-- The method `MemoryManager::dealloc` (memory.rs lines 153-158), reached
from `MemoryHandle::drop` through the spawned release task: clear the
handle's bit (and notify one waiter, which has no bitmap effect). -/
def deallocP (s : PoolSt) (idx : Nat) : PoolSt :=
  { bits := s.bits.set idx false, live := s.live.erase idx }

/-- Freshly configured pool: the bitmap is allocated zeroed
(`alloc_zeroed`, memory.rs line 65) and no handle is outstanding. -/
def initPool (bitLen : Nat) : PoolSt := { bits := List.replicate bitLen false, live := [] }

/-- Reachable pool states: the initial state, followed by any interleaving of
completed `alloc` calls and handle releases (each critical section is atomic
under the bitmap mutex, so runs are sequences of these two operations). -/
inductive PoolReach (N bitLen : Nat) : PoolSt → Prop where
  | init : PoolReach N bitLen (initPool bitLen)
  | step_alloc (s : PoolSt) (h : MemHandle) (s2 : PoolSt) :
      PoolReach N bitLen s → allocP N s = some (h, s2) → PoolReach N bitLen s2
  | step_release (s : PoolSt) (idx : Nat) :
      PoolReach N bitLen s → idx ∈ s.live → PoolReach N bitLen (deallocP s idx)

/-- Pool invariant: bitmap length is fixed, no two outstanding handles share a
slot, every outstanding handle owns a set bit of a real (non-padding) slot,
padding bits stay clear, and the number of set bits equals the number of
outstanding handles. -/
def PoolInv (N bitLen : Nat) (s : PoolSt) : Prop :=
  s.bits.length = bitLen ∧
  s.live.Nodup ∧
  (∀ i ∈ s.live, i < N ∧ s.bits.getD i false = true) ∧
  (∀ i, N ≤ i → s.bits.getD i false = false) ∧
  s.bits.count true = s.live.length

theorem getD_indep (l : List Bool) : ∀ (i : Nat), i < l.length →
    ∀ (d1 d2 : Bool), l.getD i d1 = l.getD i d2 := by
  induction l with
  | nil => intro i hi; simp at hi
  | cons b rest ih =>
    intro i hi d1 d2
    cases i with
    | zero => rfl
    | succ j => exact ih j (by simpa using hi) d1 d2

theorem getD_set_self (l : List Bool) : ∀ (i : Nat), i < l.length →
    ∀ (v d : Bool), (l.set i v).getD i d = v := by
  induction l with
  | nil => intro i hi; simp at hi
  | cons b rest ih =>
    intro i hi v d
    cases i with
    | zero => rfl
    | succ j => exact ih j (by simpa using hi) v d

theorem getD_set_ne (l : List Bool) : ∀ (i j : Nat), i ≠ j →
    ∀ (v d : Bool), (l.set i v).getD j d = l.getD j d := by
  induction l with
  | nil => intro i j hij v d; rfl
  | cons b rest ih =>
    intro i j hij v d
    cases i with
    | zero =>
      cases j with
      | zero => exact absurd rfl hij
      | succ j2 => rfl
    | succ i2 =>
      cases j with
      | zero => rfl
      | succ j2 => exact ih i2 j2 (by omega) v d

theorem count_set_true (l : List Bool) : ∀ (i : Nat), i < l.length →
    l.getD i false = false → (l.set i true).count true = l.count true + 1 := by
  induction l with
  | nil => intro i hi; simp at hi
  | cons b rest ih =>
    intro i hi hf
    cases i with
    | zero =>
      have hb : b = false := hf
      subst hb
      simp [List.count_cons]
    | succ j =>
      have hrec := ih j (by simpa using hi) hf
      show (b :: rest.set j true).count true = (b :: rest).count true + 1
      simp only [List.count_cons]
      omega

theorem count_set_false (l : List Bool) : ∀ (i : Nat), i < l.length →
    l.getD i false = true → (l.set i false).count true + 1 = l.count true := by
  induction l with
  | nil => intro i hi; simp at hi
  | cons b rest ih =>
    intro i hi ht
    cases i with
    | zero =>
      have hb : b = true := ht
      subst hb
      simp [List.count_cons]
    | succ j =>
      have hrec := ih j (by simpa using hi) ht
      show (b :: rest.set j false).count true + 1 = (b :: rest).count true
      simp only [List.count_cons]
      omega

theorem getD_replicate_false (n : Nat) : ∀ i : Nat,
    (List.replicate n false).getD i false = false := by
  induction n with
  | zero => intro i; rfl
  | succ m ih =>
    intro i
    cases i with
    | zero => rfl
    | succ j => exact ih j

theorem firstZero_some (l : List Bool) : ∀ (i : Nat), firstZero l = some i →
    i < l.length ∧ l.getD i true = false ∧ ∀ j, j < i → l.getD j false = true := by
  induction l with
  | nil => intro i h; exact absurd h (by simp [firstZero])
  | cons b rest ih =>
    intro i h
    rw [firstZero] at h
    split at h
    · rename_i hb
      rcases hfz : firstZero rest with - | i2
      · rw [hfz] at h; simp at h
      · rw [hfz] at h
        simp only [Option.map_some', Option.some.injEq] at h
        obtain ⟨h1, h2, h3⟩ := ih i2 hfz
        refine ⟨?_, ?_, ?_⟩
        · simp only [List.length_cons]; omega
        · have : i = i2 + 1 := by omega
          subst this
          exact h2
        · intro j hj
          have : i = i2 + 1 := by omega
          subst this
          cases j with
          | zero => exact hb
          | succ j2 => exact h3 j2 (by omega)
    · rename_i hb
      have h0 : i = 0 := by simpa using h.symm
      subst h0
      refine ⟨by simp, by simpa using hb, ?_⟩
      intro j hj
      omega

theorem firstZero_none (l : List Bool) : firstZero l = none →
    ∀ j, j < l.length → l.getD j false = true := by
  induction l with
  | nil => intro _ j hj; simp at hj
  | cons b rest ih =>
    intro h j hj
    rw [firstZero] at h
    split at h
    · rename_i hb
      cases j with
      | zero => exact hb
      | succ j2 =>
        rcases hfz : firstZero rest with - | i2
        · exact ih hfz j2 (by simpa using hj)
        · rw [hfz] at h; simp at h
    · simp at h

/-- Preservation of the pool invariant along every reachable state. -/
theorem poolInv_of_reach (N bitLen : Nat) (hNL : N ≤ bitLen) (s : PoolSt)
    (hr : PoolReach N bitLen s) : PoolInv N bitLen s := by
  induction hr with
  | init =>
    refine ⟨by simp [initPool], by simp [initPool], ?_, ?_, ?_⟩
    · intro i hi
      exact absurd hi (by simp [initPool])
    · intro i hi
      exact getD_replicate_false bitLen i
    · simp [initPool, List.count_replicate]
  | step_alloc s h s2 hreach heq ih =>
    obtain ⟨hlen, hnd, hlive, hpad, hcnt⟩ := ih
    unfold allocP at heq
    split at heq
    · exact Option.noConfusion heq
    · rename_i i hfz
      split at heq
      · exact Option.noConfusion heq
      · rename_i hiN
        simp only [Option.some.injEq, Prod.mk.injEq] at heq
        obtain ⟨-, heq2⟩ := heq
        obtain ⟨hilt, hfalse, -⟩ := firstZero_some s.bits i hfz
        have hfalse2 : s.bits.getD i false = false := by
          rw [getD_indep s.bits i hilt false true]
          exact hfalse
        have hnotlive : i ∉ s.live := by
          intro hmem
          have := (hlive i hmem).2
          rw [this] at hfalse2
          exact absurd hfalse2 (by simp)
        subst heq2
        refine ⟨by simpa using hlen, ?_, ?_, ?_, ?_⟩
        · exact List.Nodup.cons hnotlive hnd
        · intro x hx
          simp only [List.mem_cons] at hx
          rcases hx with hx | hx
          · subst hx
            exact ⟨by omega, getD_set_self s.bits x hilt true false⟩
          · refine ⟨(hlive x hx).1, ?_⟩
            have hne : i ≠ x := fun hcontra => hnotlive (hcontra ▸ hx)
            rw [getD_set_ne s.bits i x hne true false]
            exact (hlive x hx).2
        · intro x hx
          have hne : i ≠ x := by omega
          rw [getD_set_ne s.bits i x hne true false]
          exact hpad x hx
        · simp only [List.length_cons]
          rw [count_set_true s.bits i hilt hfalse2, hcnt]
  | step_release s idx hreach hmem ih =>
    obtain ⟨hlen, hnd, hlive, hpad, hcnt⟩ := ih
    obtain ⟨hidxN, hidxtrue⟩ := hlive idx hmem
    have hidxlt : idx < s.bits.length := by omega
    unfold deallocP
    refine ⟨by simpa using hlen, ?_, ?_, ?_, ?_⟩
    · exact List.Nodup.erase idx hnd
    · intro x hx
      have hxmem : x ∈ s.live := List.mem_of_mem_erase hx
      have hxne : x ≠ idx := ((List.Nodup.mem_erase_iff hnd).mp hx).1
      refine ⟨(hlive x hxmem).1, ?_⟩
      rw [getD_set_ne s.bits idx x (by omega) false false]
      exact (hlive x hxmem).2
    · intro x hx
      have hne : idx ≠ x := by omega
      rw [getD_set_ne s.bits idx x hne false false]
      exact hpad x hx
    · have h1 := count_set_false s.bits idx hidxlt hidxtrue
      have h2 := List.length_erase_of_mem hmem
      have h3 : 1 ≤ s.live.length := List.length_pos_of_mem hmem
      show (s.bits.set idx false).count true = (s.live.erase idx).length
      omega

/-- Claim C7: in every reachable pool state the bitmap carries exactly one set
bit per outstanding handle: set bits and outstanding handles are in bijection
(equal counts, distinct slots, each handle owning a set non-padding bit);
every completed `alloc` flips exactly one previously-clear bit and returns a
handle for that slot with logical length 0; every release clears exactly that
handle's bit. -/
theorem c7_bitmap_one_bit_per_handle (N bitLen : Nat) (hNL : N ≤ bitLen) (s : PoolSt)
    (hr : PoolReach N bitLen s) :
    (s.bits.count true = s.live.length ∧ s.live.Nodup ∧
      (∀ i ∈ s.live, i < N ∧ s.bits.getD i false = true)) ∧
    (∀ (h : MemHandle) (s2 : PoolSt), allocP N s = some (h, s2) →
      h.len = 0 ∧ h.allocation_idx < N ∧
      s.bits.getD h.allocation_idx false = false ∧
      s2.bits = s.bits.set h.allocation_idx true ∧
      s2.live = h.allocation_idx :: s.live ∧
      s2.bits.count true = s.bits.count true + 1) ∧
    (∀ idx ∈ s.live, (deallocP s idx).bits = s.bits.set idx false ∧
      (deallocP s idx).bits.count true + 1 = s.bits.count true) := by
  obtain ⟨hlen, hnd, hlive, hpad, hcnt⟩ := poolInv_of_reach N bitLen hNL s hr
  refine ⟨⟨hcnt, hnd, hlive⟩, ?_, ?_⟩
  · intro h s2 heq
    unfold allocP at heq
    split at heq
    · exact Option.noConfusion heq
    · rename_i i hfz
      split at heq
      · exact Option.noConfusion heq
      · rename_i hiN
        simp only [Option.some.injEq, Prod.mk.injEq] at heq
        obtain ⟨heq1, heq2⟩ := heq
        obtain ⟨hilt, hfalse, -⟩ := firstZero_some s.bits i hfz
        have hfalse2 : s.bits.getD i false = false := by
          rw [getD_indep s.bits i hilt false true]
          exact hfalse
        subst heq1
        subst heq2
        refine ⟨rfl, ?_, hfalse2, rfl, rfl, ?_⟩
        · show i < N
          omega
        · exact count_set_true s.bits i hilt hfalse2
  · intro idx hmem
    obtain ⟨hidxN, hidxtrue⟩ := hlive idx hmem
    have hidxlt : idx < s.bits.length := by omega
    exact ⟨rfl, count_set_false s.bits idx hidxlt hidxtrue⟩

/-- Witness for C7 at the concrete reachable state after one allocation on a
two-slot pool. -/
theorem c7_bitmap_one_bit_per_handle_witness :
    (PoolSt.mk [true, false] [0]).bits.count true = (PoolSt.mk [true, false] [0]).live.length :=
  (c7_bitmap_one_bit_per_handle 2 2 (by decide) (PoolSt.mk [true, false] [0])
    (PoolReach.step_alloc (initPool 2) (MemHandle.mk 0 0) (PoolSt.mk [true, false] [0])
      PoolReach.init (by decide))).1.1

/-- Sequential acquisition of `k` handles, modelling a caller that calls
`MemoryManager::alloc` `k` times in a row; `none` means some call suspended. -/
def allocSeq (N : Nat) : Nat → PoolSt → Option PoolSt
  | 0, s => some s
  | k + 1, s =>
    match allocP N s with
    | none => none
    | some (_, s2) => allocSeq N k s2

theorem allocSeq_succ (N k : Nat) (s : PoolSt) :
    allocSeq N (k + 1) s =
      match allocP N s with
      | none => none
      | some (_, s2) => allocSeq N k s2 := rfl

theorem count_le_of_padding (l : List Bool) : ∀ N : Nat,
    (∀ i, N ≤ i → l.getD i false = false) → l.count true ≤ N := by
  induction l with
  | nil => intro N _; simp
  | cons b rest ih =>
    intro N hpad
    cases N with
    | zero =>
      have hb : b = false := hpad 0 (by omega)
      subst hb
      have hrest : rest.count true ≤ 0 := ih 0 (fun i _ => hpad (i + 1) (by omega))
      simp [List.count_cons]
      omega
    | succ m =>
      have hrest : rest.count true ≤ m := ih m (fun i hi => hpad (i + 1) (by omega))
      cases b <;> simp [List.count_cons] <;> omega

theorem count_ge_of_prefix_true (l : List Bool) : ∀ N : Nat, N ≤ l.length →
    (∀ j, j < N → l.getD j false = true) → N ≤ l.count true := by
  induction l with
  | nil => intro N hN _; simp at hN ⊢; omega
  | cons b rest ih =>
    intro N hN hpre
    cases N with
    | zero => omega
    | succ m =>
      have hb : b = true := hpre 0 (by omega)
      subst hb
      have hrest : m ≤ rest.count true :=
        ih m (by simpa using hN) (fun j hj => hpre (j + 1) (by omega))
      simp [List.count_cons]
      omega

theorem count_lt_of_clear_bit (l : List Bool) : ∀ (N j : Nat),
    (∀ i, N ≤ i → l.getD i false = false) → j < N → l.getD j false = false →
    l.count true < N := by
  induction l with
  | nil => intro N j _ hj _; simp; omega
  | cons b rest ih =>
    intro N j hpad hj hf
    cases N with
    | zero => omega
    | succ m =>
      cases j with
      | zero =>
        have hb : b = false := hf
        subst hb
        have hrest : rest.count true ≤ m :=
          count_le_of_padding rest m (fun i hi => hpad (i + 1) (by omega))
        simp [List.count_cons]
        omega
      | succ j2 =>
        have hrest : rest.count true < m :=
          ih m j2 (fun i hi => hpad (i + 1) (by omega)) (by omega) hf
        cases b <;> simp [List.count_cons] <;> omega

theorem allocP_isSome_of_free (N : Nat) (s : PoolSt) (j : Nat) (hj : j < N)
    (hfalse : s.bits.getD j false = false) (hjlen : j < s.bits.length) :
    (allocP N s).isSome = true := by
  unfold allocP
  rcases hfz : firstZero s.bits with - | i
  · have htrue := firstZero_none s.bits hfz j hjlen
    rw [htrue] at hfalse
    exact absurd hfalse (by simp)
  · obtain ⟨hilt, hfbit, hmin⟩ := firstZero_some s.bits i hfz
    have hiN : i < N := by
      by_contra hge
      have hji : j < i := by omega
      have htrue := hmin j hji
      rw [htrue] at hfalse
      exact absurd hfalse (by simp)
    simp only [hfz]
    rw [if_neg (by omega)]
    rfl

theorem allocP_some_live (N : Nat) (s : PoolSt) (h : MemHandle) (s2 : PoolSt)
    (heq : allocP N s = some (h, s2)) : s2.live.length = s.live.length + 1 := by
  unfold allocP at heq
  split at heq
  · exact Option.noConfusion heq
  · rename_i i hfz
    split at heq
    · exact Option.noConfusion heq
    · simp only [Option.some.injEq, Prod.mk.injEq] at heq
      rw [← heq.2]
      show (i :: s.live).length = s.live.length + 1
      rfl

theorem allocP_isSome_of_live_lt (N bitLen : Nat) (hNL : N ≤ bitLen) (s : PoolSt)
    (hr : PoolReach N bitLen s) (hlt : s.live.length < N) :
    (allocP N s).isSome = true := by
  obtain ⟨hlen, hnd, hlive, hpad, hcnt⟩ := poolInv_of_reach N bitLen hNL s hr
  by_cases hfree : ∃ j, j < N ∧ s.bits.getD j false = false
  · obtain ⟨j, hj, hf⟩ := hfree
    exact allocP_isSome_of_free N s j hj hf (by omega)
  · push_neg at hfree
    have hpre : ∀ j, j < N → s.bits.getD j false = true := by
      intro j hj
      rcases hb : s.bits.getD j false with - | -
      · exact absurd hb (hfree j hj)
      · rfl
    have := count_ge_of_prefix_true s.bits N (by omega) hpre
    omega

theorem allocSeq_isSome (N bitLen : Nat) (hNL : N ≤ bitLen) :
    ∀ (k : Nat) (s : PoolSt), PoolReach N bitLen s → s.live.length + k ≤ N →
      (allocSeq N k s).isSome = true := by
  intro k
  induction k with
  | zero => intro s _ _; rfl
  | succ m ih =>
    intro s hr hle
    have hsome := allocP_isSome_of_live_lt N bitLen hNL s hr (by omega)
    rcases ha : allocP N s with - | p
    · rw [ha] at hsome
      exact absurd hsome (by simp)
    · obtain ⟨h, s2⟩ := p
      rw [allocSeq_succ, ha]
      have hr2 := PoolReach.step_alloc s h s2 hr ha
      have hlive2 := allocP_some_live N s h s2 ha
      exact ih s2 hr2 (by omega)

/-- Claim C8: with `buffer_count = N` slots (bitmap of `bitLen ≥ N` bits), the
number of outstanding handles never exceeds `N` in any reachable state;
`alloc` completes without suspending whenever fewer than `N` handles are
outstanding (in particular `N` acquisitions in sequence from the fresh pool
all succeed), suspends (`none`) whenever all `N` are outstanding, and becomes
able to complete again as soon as any outstanding handle is released. -/
theorem c8_pool_backpressure (N bitLen : Nat) (hN : 1 ≤ N) (hNL : N ≤ bitLen) :
    (∀ s, PoolReach N bitLen s → s.live.length ≤ N) ∧
    (∀ s, PoolReach N bitLen s → s.live.length < N → (allocP N s).isSome = true) ∧
    (∀ s, PoolReach N bitLen s → s.live.length = N → allocP N s = none) ∧
    (∀ s, PoolReach N bitLen s → ∀ idx ∈ s.live,
      (allocP N (deallocP s idx)).isSome = true) ∧
    (∀ k, k ≤ N → (allocSeq N k (initPool bitLen)).isSome = true) := by
  refine ⟨?_, ?_, ?_, ?_, ?_⟩
  · intro s hr
    obtain ⟨hlen, hnd, hlive, hpad, hcnt⟩ := poolInv_of_reach N bitLen hNL s hr
    have := count_le_of_padding s.bits N hpad
    omega
  · intro s hr hlt
    exact allocP_isSome_of_live_lt N bitLen hNL s hr hlt
  · intro s hr hfull
    obtain ⟨hlen, hnd, hlive, hpad, hcnt⟩ := poolInv_of_reach N bitLen hNL s hr
    unfold allocP
    rcases hfz : firstZero s.bits with - | i
    · simp only [hfz]
    · obtain ⟨hilt, hfbit, hmin⟩ := firstZero_some s.bits i hfz
      have hfalse2 : s.bits.getD i false = false := by
        rw [getD_indep s.bits i hilt false true]
        exact hfbit
      have hiN : N ≤ i := by
        by_contra hlt2
        have := count_lt_of_clear_bit s.bits N i hpad (by omega) hfalse2
        omega
      simp only [hfz]
      rw [if_pos hiN]
  · intro s hr idx hmem
    obtain ⟨hlen, hnd, hlive, hpad, hcnt⟩ := poolInv_of_reach N bitLen hNL s hr
    obtain ⟨hidxN, -⟩ := hlive idx hmem
    have hidxlt : idx < s.bits.length := by omega
    refine allocP_isSome_of_free N (deallocP s idx) idx hidxN ?_ ?_
    · show (s.bits.set idx false).getD idx false = false
      exact getD_set_self s.bits idx hidxlt false false
    · show idx < (s.bits.set idx false).length
      rw [List.length_set]
      omega
  · intro k hk
    exact allocSeq_isSome N bitLen hNL k (initPool bitLen) PoolReach.init
      (by simp [initPool]; omega)

/-- Witness for C8: on a fresh two-slot pool, acquiring both handles in
sequence succeeds. -/
theorem c8_pool_backpressure_witness :
    (allocSeq 2 2 (initPool 2)).isSome = true :=
  (c8_pool_backpressure 2 2 (by decide) (by decide)).2.2.2.2 2 (by decide)

end ChunkLocker
